import Mathlib

/-
Verification of the brushing-tracker storage, statistics, reminder and
time-format logic.

Modelling conventions (shallow embedding of the TypeScript source):
* Calendar-day strings "YYYY-MM-DD" are modelled as integer day numbers
  (`Int`): string comparison / equality on such strings agrees with
  integer comparison of day numbers, and the JavaScript date arithmetic
  used by the code (24*60*60*1000 ms steps on UTC midnights) corresponds
  to adding/subtracting 1.  A single consistent timezone is assumed, as
  the spec itself does.
* ISO timestamps are modelled as integers, entry ids (crypto.randomUUID)
  as naturals supplied by the caller of the operation that creates them.
* The localStorage contents for the entries key is modelled as the list
  of entries itself; the try/catch behaviour of the storage layer is
  modelled separately (see the StorageBackend section below).
-/

/-- BrushingEntry (storage.ts lines 1-7). -/
structure BrushingEntry where
  id : Nat
  date : Int
  timestamp : Int
  confirmed : Bool
  reminderTime : Option Nat
deriving DecidableEq, Repr

/-- Partial<BrushingEntry>: the `updates` argument of updateEntry.
`none` means the field is absent from the update object. -/
structure EntryUpdates where
  id : Option Nat := none
  date : Option Int := none
  timestamp : Option Int := none
  confirmed : Option Bool := none
  reminderTime : Option (Option Nat) := none
deriving DecidableEq, Repr

/-- The object spread `{ ...entry, ...updates }` used by updateEntry. -/
def applyUpdates (e : BrushingEntry) (u : EntryUpdates) : BrushingEntry :=
  { id := u.id.getD e.id
    date := u.date.getD e.date
    timestamp := u.timestamp.getD e.timestamp
    confirmed := u.confirmed.getD e.confirmed
    reminderTime := u.reminderTime.getD e.reminderTime }

/-- BrushingStorage.getEntryByDate: `entries.find((entry) => entry.date === date) || null`. -/
def getEntryByDate (entries : List BrushingEntry) (date : Int) : Option BrushingEntry :=
  entries.find? (fun e => e.date = date)

/-- BrushingStorage.insertEntry: `entries.push(newEntry)` followed by a write of
the enlarged list.  The fresh entry (with its randomUUID already filled in)
is passed by the caller. -/
def insertEntry (entries : List BrushingEntry) (newEntry : BrushingEntry) : List BrushingEntry :=
  entries ++ [newEntry]

/-- BrushingStorage.updateEntry: find the first entry whose id matches, replace
it by the spread `{ ...entries[index], ...updates }`; return the new list and
the boolean result (false when no entry matches).  The source's
findIndex-then-assign is rendered as structural recursion over the list. -/
def updateEntry (entries : List BrushingEntry) (id : Nat) (u : EntryUpdates) :
    List BrushingEntry × Bool :=
  match entries with
  | [] => ([], false)
  | e :: rest =>
    if e.id = id then (applyUpdates e u :: rest, true)
    else
      let r := updateEntry rest id u
      (e :: r.1, r.2)

/-- The update object `{ confirmed: true, timestamp: ... }` used by
confirmBrushingToday's update branch. -/
def confirmUpdates (ts : Int) : EntryUpdates :=
  { confirmed := some true, timestamp := some ts }

/-- BrushingStorage.confirmBrushingToday (storage.ts lines 119-140), acting on
the stored list.  `today` is getTodayDateString(), `ts` the current instant,
`newId` the randomUUID used if a fresh entry is inserted.  The function's
return value (the entry) is not modelled; only the store effect is. -/
def confirmBrushingToday (entries : List BrushingEntry) (today ts : Int) (newId : Nat) :
    List BrushingEntry :=
  match getEntryByDate entries today with
  | some existing => (updateEntry entries existing.id (confirmUpdates ts)).1
  | none =>
    insertEntry entries
      { id := newId, date := today, timestamp := ts, confirmed := true, reminderTime := none }

/-- BrushingStorage.deleteEntry: filter out the matching id; the boolean is
false when nothing was removed. -/
def deleteEntry (entries : List BrushingEntry) (id : Nat) : List BrushingEntry × Bool :=
  let filtered := entries.filter (fun e => ¬ e.id = id)
  (filtered, ¬ filtered.length = entries.length)

/-- BrushingStorage.clearAllEntries: the entries key is removed, so a
subsequent read yields the empty list. -/
def clearAllEntries : List BrushingEntry := []

/-- Number of stored entries carrying the given calendar day. -/
def countOnDate (entries : List BrushingEntry) (d : Int) : Nat :=
  (entries.filter (fun e => e.date = d)).length

lemma applyUpdates_date_of_none (e : BrushingEntry) (u : EntryUpdates) (h : u.date = none) :
    (applyUpdates e u).date = e.date := by
  simp [applyUpdates, h]

lemma applyUpdates_id_of_none (e : BrushingEntry) (u : EntryUpdates) (h : u.id = none) :
    (applyUpdates e u).id = e.id := by
  simp [applyUpdates, h]

/-- updateEntry never touches the `date` field unless the update object carries
one, so per-day entry counts are unchanged. -/
lemma countOnDate_updateEntry (l : List BrushingEntry) (id : Nat) (u : EntryUpdates)
    (hu : u.date = none) (d : Int) :
    countOnDate (updateEntry l id u).1 d = countOnDate l d := by
  induction l with
  | nil => rfl
  | cons e rest ih =>
    by_cases h : e.id = id
    · simp only [updateEntry, if_pos h, countOnDate, List.filter]
      rw [applyUpdates_date_of_none e u hu]
      by_cases hd : e.date = d <;> simp [hd, countOnDate] at ih ⊢
    · simp only [updateEntry, if_neg h, countOnDate, List.filter]
      by_cases hd : e.date = d <;> simp [hd, countOnDate] at ih ⊢ <;> omega

lemma countOnDate_append (l₁ l₂ : List BrushingEntry) (d : Int) :
    countOnDate (l₁ ++ l₂) d = countOnDate l₁ d + countOnDate l₂ d := by
  simp [countOnDate, List.filter_append]

lemma getEntryByDate_eq_none_iff (l : List BrushingEntry) (d : Int) :
    getEntryByDate l d = none ↔ countOnDate l d = 0 := by
  simp [getEntryByDate, countOnDate, List.find?_eq_none, List.length_eq_zero,
    List.filter_eq_nil_iff]

lemma getEntryByDate_isSome_of_count (l : List BrushingEntry) (d : Int)
    (h : 0 < countOnDate l d) : ∃ e, getEntryByDate l d = some e := by
  rcases ho : getEntryByDate l d with _ | e
  · rw [getEntryByDate_eq_none_iff] at ho; omega
  · exact ⟨e, rfl⟩

lemma count_pos_of_getEntryByDate_some (l : List BrushingEntry) (d : Int)
    (e : BrushingEntry) (h : getEntryByDate l d = some e) : 0 < countOnDate l d := by
  have hmem : e ∈ l := List.mem_of_find?_eq_some h
  have hdate : e.date = d := by
    have := List.find?_some h
    simpa using this
  have : e ∈ l.filter (fun x => x.date = d) := by
    rw [List.mem_filter]
    exact ⟨hmem, by simp [hdate]⟩
  have := List.length_pos.mpr (List.ne_nil_of_mem this)
  simpa [countOnDate] using this

/-- After one confirmBrushingToday, today has exactly one entry (starting from
a store satisfying the one-entry-per-day invariant for today). -/
lemma countOnDate_confirm (l : List BrushingEntry) (today ts : Int) (newId : Nat)
    (h : countOnDate l today ≤ 1) :
    countOnDate (confirmBrushingToday l today ts newId) today = 1 := by
  rcases ho : getEntryByDate l today with _ | e
  · have hz : countOnDate l today = 0 := (getEntryByDate_eq_none_iff l today).mp ho
    simp only [confirmBrushingToday, ho, insertEntry, countOnDate_append, hz]
    simp [countOnDate]
  · have hpos : 0 < countOnDate l today := count_pos_of_getEntryByDate_some l today e ho
    simp only [confirmBrushingToday, ho]
    rw [countOnDate_updateEntry l e.id (confirmUpdates ts) rfl today]
    omega

/-- updateEntry preserves the length of the store. -/
lemma updateEntry_length (l : List BrushingEntry) (id : Nat) (u : EntryUpdates) :
    (updateEntry l id u).1.length = l.length := by
  induction l with
  | nil => rfl
  | cons e rest ih =>
    by_cases h : e.id = id <;> simp [updateEntry, h, ih]

/-- Entries whose id differs from the updated id are untouched by updateEntry. -/
lemma mem_updateEntry_of_ne (l : List BrushingEntry) (id : Nat) (u : EntryUpdates)
    (e : BrushingEntry) (hmem : e ∈ l) (hne : e.id ≠ id) : e ∈ (updateEntry l id u).1 := by
  induction l with
  | nil => simp at hmem
  | cons a rest ih =>
    by_cases h : a.id = id
    · simp only [updateEntry, if_pos h]
      rcases List.mem_cons.mp hmem with he | he
      · exact absurd (he ▸ h) hne
      · exact List.mem_cons_of_mem _ he
    · simp only [updateEntry, if_neg h]
      rcases List.mem_cons.mp hmem with he | he
      · exact he ▸ List.mem_cons_self _ _
      · exact List.mem_cons_of_mem _ (ih he)

/-- If the update object does not rewrite ids, the list of ids (in order) is
unchanged by updateEntry. -/
lemma updateEntry_map_id (l : List BrushingEntry) (id : Nat) (u : EntryUpdates)
    (hu : u.id = none) :
    (updateEntry l id u).1.map BrushingEntry.id = l.map BrushingEntry.id := by
  induction l with
  | nil => rfl
  | cons e rest ih =>
    by_cases h : e.id = id
    · simp [updateEntry, h, applyUpdates_id_of_none e u hu]
    · simp [updateEntry, h, ih]

lemma exists_mem_id_of_updateEntry (l : List BrushingEntry) (id : Nat) (u : EntryUpdates)
    (hu : u.id = none) (e : BrushingEntry) (hmem : e ∈ l) :
    ∃ e₂ ∈ (updateEntry l id u).1, e₂.id = e.id := by
  have : e.id ∈ (updateEntry l id u).1.map BrushingEntry.id := by
    rw [updateEntry_map_id l id u hu]
    exact List.mem_map_of_mem _ hmem
  rcases List.mem_map.mp this with ⟨e₂, h₂, hid⟩
  exact ⟨e₂, h₂, hid⟩

/-- Claim C1: starting from a store satisfying the one-entry-per-calendar-day
invariant (at most one entry dated `today`), calling confirmBrushingToday twice
on the same calendar day leaves exactly one entry for that day: the second
call finds the entry created (or updated) by the first and mutates it in
place rather than inserting a new one. -/
theorem confirm_twice_one_entry_per_day (l : List BrushingEntry) (today ts₁ ts₂ : Int)
    (id₁ id₂ : Nat) (h : countOnDate l today ≤ 1) :
    countOnDate
      (confirmBrushingToday (confirmBrushingToday l today ts₁ id₁) today ts₂ id₂) today = 1 := by
  have h1 : countOnDate (confirmBrushingToday l today ts₁ id₁) today = 1 :=
    countOnDate_confirm l today ts₁ id₁ h
  exact countOnDate_confirm _ today ts₂ id₂ (le_of_eq h1)

/-- Witness for C1 at a concrete store: one prior (unconfirmed) entry dated 3,
confirmed twice on day 3. -/
theorem confirm_twice_one_entry_per_day_witness :
    countOnDate [⟨7, 3, 0, false, none⟩] 3 ≤ 1 ∧
      countOnDate
        (confirmBrushingToday
          (confirmBrushingToday [⟨7, 3, 0, false, none⟩] 3 10 1) 3 20 2) 3 = 1 :=
  ⟨by decide, confirm_twice_one_entry_per_day [⟨7, 3, 0, false, none⟩] 3 10 20 1 2 (by decide)⟩

lemma confirm_length_ge (l : List BrushingEntry) (today ts : Int) (newId : Nat) :
    l.length ≤ (confirmBrushingToday l today ts newId).length := by
  rcases ho : getEntryByDate l today with _ | e
  · simp [confirmBrushingToday, ho, insertEntry]
  · simp [confirmBrushingToday, ho, updateEntry_length]

/-- In a store with pairwise-distinct ids (randomUUID uniqueness), the entry
found by date and the entry subsequently found by its id coincide, so
confirmBrushingToday leaves every entry of a different calendar day untouched. -/
lemma mem_confirm_of_date_ne (l : List BrushingEntry) (today ts : Int) (newId : Nat)
    (hids : (l.map BrushingEntry.id).Nodup) (e : BrushingEntry) (hmem : e ∈ l)
    (hdate : e.date ≠ today) : e ∈ confirmBrushingToday l today ts newId := by
  rcases ho : getEntryByDate l today with _ | ex
  · simp only [confirmBrushingToday, ho, insertEntry]
    exact List.mem_append_left _ hmem
  · have hexmem : ex ∈ l := List.mem_of_find?_eq_some ho
    have hexdate : ex.date = today := by
      have := List.find?_some ho
      simpa using this
    simp only [confirmBrushingToday, ho]
    apply mem_updateEntry_of_ne l ex.id (confirmUpdates ts) e hmem
    intro hid
    exact hdate (by
      have := List.inj_on_of_nodup_map hids hmem hexmem hid
      rw [this, hexdate])

lemma exists_mem_id_of_confirm (l : List BrushingEntry) (today ts : Int) (newId : Nat)
    (e : BrushingEntry) (hmem : e ∈ l) :
    ∃ e₂ ∈ confirmBrushingToday l today ts newId, e₂.id = e.id := by
  rcases ho : getEntryByDate l today with _ | ex
  · exact ⟨e, by simp [confirmBrushingToday, ho, insertEntry, hmem], rfl⟩
  · simp only [confirmBrushingToday, ho]
    exact exists_mem_id_of_updateEntry l ex.id (confirmUpdates ts) rfl e hmem

/-- Claim C9: frame conditions of the storage operations.  Under the
id-uniqueness invariant (ids come from crypto.randomUUID),
(1) confirmBrushingToday leaves every entry of a different calendar day in the
store unchanged, (2) it never removes an entry (the store never shrinks, and
every stored id survives), (3) updateEntry leaves every entry with a different
id unchanged, and (4) insertEntry/updateEntry never remove an entry —
only deleteEntry and clearAllEntries can. -/
theorem storage_frame_conditions (l : List BrushingEntry) (today ts : Int)
    (newId uid : Nat) (u : EntryUpdates) (e e' : BrushingEntry) :
    ((l.map BrushingEntry.id).Nodup → e ∈ l → e.date ≠ today →
        e ∈ confirmBrushingToday l today ts newId) ∧
      l.length ≤ (confirmBrushingToday l today ts newId).length ∧
      (e ∈ l → ∃ e₂ ∈ confirmBrushingToday l today ts newId, e₂.id = e.id) ∧
      (e ∈ l → e.id ≠ uid → e ∈ (updateEntry l uid u).1) ∧
      (updateEntry l uid u).1.length = l.length ∧
      (insertEntry l e').length = l.length + 1 := by
  refine ⟨fun hids hmem hdate => mem_confirm_of_date_ne l today ts newId hids e hmem hdate,
    confirm_length_ge l today ts newId,
    fun hmem => exists_mem_id_of_confirm l today ts newId e hmem,
    fun hmem hne => mem_updateEntry_of_ne l uid u e hmem hne,
    updateEntry_length l uid u, by simp [insertEntry]⟩

/-- Witness for C9 at a concrete store of two entries with distinct ids. -/
theorem storage_frame_conditions_witness :
    (⟨1, 5, 0, true, none⟩ : BrushingEntry) ∈
        confirmBrushingToday [⟨1, 5, 0, true, none⟩, ⟨2, 6, 0, false, none⟩] 6 50 9 ∧
      (⟨1, 5, 0, true, none⟩ : BrushingEntry) ∈
        (updateEntry [⟨1, 5, 0, true, none⟩, ⟨2, 6, 0, false, none⟩] 2 (confirmUpdates 50)).1 ∧
      (∃ e₂ ∈ confirmBrushingToday [⟨1, 5, 0, true, none⟩, ⟨2, 6, 0, false, none⟩] 6 50 9,
        e₂.id = (⟨1, 5, 0, true, none⟩ : BrushingEntry).id) := by
  have h := storage_frame_conditions [⟨1, 5, 0, true, none⟩, ⟨2, 6, 0, false, none⟩] 6 50 9 2
    (confirmUpdates 50) ⟨1, 5, 0, true, none⟩ ⟨3, 7, 0, true, none⟩
  exact ⟨h.1 (by decide) (by decide) (by decide),
    h.2.2.2.1 (by decide) (by decide),
    h.2.2.1 (by decide)⟩

/-
Statistics (BrushingAnalytics.getStats, storage.ts lines 193-273).

`now` is the current instant measured in (fractional) days since the epoch;
the calendar day holding it is its floor.  The YYYY-MM-DD strings produced
and compared by the loop are day numbers here, and a gap of more than
24*60*60*1000 ms between consecutive UTC-midnight dates is a day difference
strictly greater than 1.
-/

/-- The dates of the confirmed entries
(`entries.filter((e) => e.confirmed).map((e) => e.date)`). -/
def confirmedDates (entries : List BrushingEntry) : List Int :=
  (entries.filter (fun e => e.confirmed)).map (fun e => e.date)

/-- The current-streak while-loop: walk backwards one day at a time from `d`,
counting as long as the day is among the confirmed dates.  The loop in the
source terminates because only finitely many consecutive days can be stored;
here the recursion is given enough fuel for that bound (see
`streakLoop_fuel_bound`). -/
def streakLoop (dates : List Int) : Int → Nat → Nat
  | _, 0 => 0
  | d, fuel + 1 => if d ∈ dates then streakLoop dates (d - 1) fuel + 1 else 0

/-- Sorting of date strings: lexicographic order on YYYY-MM-DD strings is
chronological order, i.e. integer order on day numbers. -/
def sortDates (l : List Int) : List Int := List.insertionSort (· ≤ ·) l

/-- The longest-streak for-loop (storage.ts lines 234-248): walk the ascending
confirmed dates holding the current run (`temp`) and the best run seen
(`best`); a gap strictly greater than one day — or the end of the list —
records the run and resets it. -/
def longestAux : List Int → Nat → Nat → Nat
  | [], _, best => best
  | [_], temp, best => max best (temp + 1)
  | d :: d₂ :: rest, temp, best =>
    if d₂ - d > 1 then longestAux (d₂ :: rest) 0 (max best (temp + 1))
    else longestAux (d₂ :: rest) (temp + 1) best

/-- Math.round(x * 10) / 10, as used for averagePerWeek; Math.round is
floor(x + 1/2). -/
def round10 (x : ℚ) : ℚ := ((⌊x * 10 + 1 / 2⌋ : Int) : ℚ) / 10

/-- BrushingStats (storage.ts lines 18-25). -/
structure BrushingStats where
  totalDays : Nat
  brushedDays : Nat
  currentStreak : Nat
  longestStreak : Nat
  averagePerWeek : ℚ
  lastBrushed : Option Int
deriving Repr

/-- BrushingAnalytics.getStats.  The early return for an empty confirmed list,
the backward while-loop for currentStreak, the ascending scan for
longestStreak, the 30-day filter for averagePerWeek and the timestamp-sorted
lastBrushed are all carried over; `membership in the reverse-sorted date list`
is plain list membership. -/
def getStats (entries : List BrushingEntry) (now : ℚ) : BrushingStats :=
  let confirmedEntries := entries.filter (fun e => e.confirmed)
  if confirmedEntries.length = 0 then
    { totalDays := 0, brushedDays := 0, currentStreak := 0, longestStreak := 0,
      averagePerWeek := 0, lastBrushed := none }
  else
    let dates := confirmedEntries.map (fun e => e.date)
    let today : Int := ⌊now⌋
    let currentStreak := streakLoop dates today (dates.length + 1)
    let allDates := sortDates dates
    let longestStreak := longestAux allDates 0 0
    let recentEntries := confirmedEntries.filter (fun e => now - 30 ≤ (e.date : ℚ))
    let averagePerWeek : ℚ := ((recentEntries.length : ℚ) / 30) * 7
    { totalDays := entries.length
      brushedDays := confirmedEntries.length
      currentStreak := currentStreak
      longestStreak := longestStreak
      averagePerWeek := round10 averagePerWeek
      lastBrushed :=
        (List.insertionSort (fun a b => b.timestamp ≤ a.timestamp) confirmedEntries).head?.map
          (fun e => e.date) }

lemma streakLoop_le_fuel (dates : List Int) (d : Int) (fuel : Nat) :
    streakLoop dates d fuel ≤ fuel := by
  induction fuel generalizing d with
  | zero => simp [streakLoop]
  | succ n ih =>
    simp only [streakLoop]
    by_cases h : d ∈ dates
    · simpa [h] using Nat.succ_le_succ (ih (d - 1))
    · simp [h]

lemma streakLoop_mem (dates : List Int) (d : Int) (fuel : Nat) (i : Nat)
    (hi : i < streakLoop dates d fuel) : d - i ∈ dates := by
  induction fuel generalizing d i with
  | zero => simp [streakLoop] at hi
  | succ n ih =>
    by_cases h : d ∈ dates
    · simp only [streakLoop, if_pos h] at hi
      cases i with
      | zero => simpa using h
      | succ j =>
        have : d - 1 - j ∈ dates := ih (d - 1) j (by omega)
        have harith : d - (j + 1 : Nat) = d - 1 - j := by push_cast; ring
        rwa [harith]
    · simp [streakLoop, h] at hi

lemma streakLoop_stop (dates : List Int) (d : Int) (fuel : Nat)
    (h : streakLoop dates d fuel < fuel) :
    d - (streakLoop dates d fuel : Int) ∉ dates := by
  induction fuel generalizing d with
  | zero => omega
  | succ n ih =>
    by_cases hm : d ∈ dates
    · simp only [streakLoop, if_pos hm] at h ⊢
      have hlt : streakLoop dates (d - 1) n < n := by omega
      have := ih (d - 1) hlt
      have harith : d - ((streakLoop dates (d - 1) n + 1 : Nat) : Int) =
          d - 1 - (streakLoop dates (d - 1) n : Int) := by push_cast; ring
      rwa [harith]
    · simp [streakLoop, hm]

/-- The while-loop can make at most `dates.length` steps: the days it visits
are distinct members of `dates`.  Hence fuel `dates.length + 1` is never
exhausted, which is why the source's unbounded loop terminates. -/
lemma streakLoop_fuel_bound (dates : List Int) (d : Int) :
    streakLoop dates d (dates.length + 1) ≤ dates.length := by
  by_contra hlt
  push_neg at hlt
  set r := streakLoop dates d (dates.length + 1) with hr
  have hsub : (Finset.range r).image (fun i : Nat => d - (i : Int)) ⊆ dates.toFinset := by
    intro x hx
    rcases Finset.mem_image.mp hx with ⟨i, hi, rfl⟩
    exact List.mem_toFinset.mpr (streakLoop_mem dates d _ i (Finset.mem_range.mp hi))
  have hinj : Function.Injective (fun i : Nat => d - (i : Int)) := by
    intro a b hab
    simp only at hab
    omega
  have hcard : ((Finset.range r).image (fun i : Nat => d - (i : Int))).card = r := by
    rw [Finset.card_image_of_injective _ hinj, Finset.card_range]
  have hle := Finset.card_le_card hsub
  have hfin : dates.toFinset.card ≤ dates.length := dates.toFinset_card_le
  omega

lemma getStats_currentStreak (entries : List BrushingEntry) (now : ℚ) :
    (getStats entries now).currentStreak =
      streakLoop (confirmedDates entries) ⌊now⌋ ((confirmedDates entries).length + 1) := by
  by_cases h : (entries.filter (fun e => e.confirmed)).length = 0
  · have hnil : entries.filter (fun e => e.confirmed) = [] := List.length_eq_zero.mp h
    simp [getStats, h, confirmedDates, hnil, streakLoop]
  · simp [getStats, h, confirmedDates]

/-- Claim C2: the computed currentStreak counts the consecutive calendar days
ending at today (today, yesterday, ...) that each have a confirmed entry,
stopping at the first day without one: every day in the counted range is
confirmed, the next day back is not, and no longer such run exists. -/
theorem currentStreak_counts_consecutive_days (entries : List BrushingEntry) (now : ℚ) :
    (∀ i : Nat, i < (getStats entries now).currentStreak →
        ⌊now⌋ - (i : Int) ∈ confirmedDates entries) ∧
      ⌊now⌋ - ((getStats entries now).currentStreak : Int) ∉ confirmedDates entries ∧
      ∀ k : Nat, (∀ i : Nat, i < k → ⌊now⌋ - (i : Int) ∈ confirmedDates entries) →
        k ≤ (getStats entries now).currentStreak := by
  rw [getStats_currentStreak]
  have hbound := streakLoop_fuel_bound (confirmedDates entries) ⌊now⌋
  refine ⟨fun i hi => streakLoop_mem _ _ _ i hi, streakLoop_stop _ _ _ (by omega), ?_⟩
  intro k hk
  by_contra hgt
  push_neg at hgt
  exact streakLoop_stop _ _ _ (by omega) (hk _ hgt)

/-- Witness for C2 at a concrete store: one confirmed entry dated day 0,
current instant inside day 0; the maximality conjunct applied with k = 1. -/
theorem currentStreak_counts_consecutive_days_witness :
    1 ≤ (getStats [⟨0, 0, 0, true, none⟩] 0).currentStreak :=
  (currentStreak_counts_consecutive_days [⟨0, 0, 0, true, none⟩] 0).2.2 1 (by decide)

/-- Counterexample to claim C4 as stated: on day 0, with day -1 missed but
day 0 itself confirmed, currentStreak is 1, not 0. -/
theorem currentStreak_after_miss_counterexample :
    (⌊(0 : ℚ)⌋ - 1 ∉ confirmedDates [⟨0, 0, 0, true, none⟩]) ∧
      (getStats [⟨0, 0, 0, true, none⟩] 0).currentStreak ≠ 0 := by
  constructor
  · decide
  · decide

/-- Claim C4 (amended): on any day immediately following a calendar day with no
confirmed entry, currentStreak is 0 if today has no confirmed entry and 1 if
it has one — i.e. only today itself can still count. -/
theorem currentStreak_after_missed_day (entries : List BrushingEntry) (now : ℚ)
    (h : ⌊now⌋ - 1 ∉ confirmedDates entries) :
    (getStats entries now).currentStreak =
      if ⌊now⌋ ∈ confirmedDates entries then 1 else 0 := by
  rw [getStats_currentStreak]
  by_cases hm : ⌊now⌋ ∈ confirmedDates entries
  · rw [if_pos hm]
    have hlen : 0 < (confirmedDates entries).length :=
      List.length_pos.mpr (List.ne_nil_of_mem hm)
    rcases hl : (confirmedDates entries).length with _ | m
    · omega
    · simp [streakLoop, hm, h]
  · rw [if_neg hm]
    simp [streakLoop, hm]

/-- Witness for the amended C4: day -1 unconfirmed, day 0 confirmed, streak 1. -/
theorem currentStreak_after_missed_day_witness :
    (getStats [⟨0, 0, 0, true, none⟩] 0).currentStreak =
      if ⌊(0 : ℚ)⌋ ∈ confirmedDates [⟨0, 0, 0, true, none⟩] then 1 else 0 :=
  currentStreak_after_missed_day [⟨0, 0, 0, true, none⟩] 0 (by decide)

/-
Longest streak: specification side.  A "run" of an ascending date list is a
maximal block of successive positions whose date gap is at most one day;
`chunkLens` lists the run lengths in order, and the longest streak per the
spec is the maximum run length seen.
-/

/-- Run lengths of a date list read left to right, splitting whenever the gap
between consecutive dates exceeds one day. -/
def chunkLens : List Int → List Nat
  | [] => []
  | [_] => [1]
  | d :: d₂ :: rest =>
    match chunkLens (d₂ :: rest) with
    | [] => [1]
    | c :: cs => if d₂ - d > 1 then 1 :: c :: cs else (c + 1) :: cs

/-- Maximum of a list of naturals (0 for the empty list). -/
def listMax (l : List Nat) : Nat := l.foldr max 0

/-- Add pending credit to the first run length. -/
def bump (t : Nat) : List Nat → List Nat
  | [] => []
  | c :: cs => (t + c) :: cs

lemma chunkLens_cons_shape (d : Int) (l : List Int) :
    ∃ c cs, chunkLens (d :: l) = c :: cs := by
  cases l with
  | nil => exact ⟨1, [], rfl⟩
  | cons d₂ rest =>
    rcases h : chunkLens (d₂ :: rest) with _ | ⟨c, cs⟩
    · exact ⟨1, [], by simp [chunkLens, h]⟩
    · by_cases hg : d₂ - d > 1
      · exact ⟨1, c :: cs, by simp [chunkLens, h, hg]⟩
      · exact ⟨c + 1, cs, by simp [chunkLens, h, hg]⟩

/-- The accumulator semantics of the longest-streak loop: its result is the
best-so-far joined with the run lengths ahead, the first of which still
receives the pending credit `temp`. -/
lemma longestAux_eq_chunks (l : List Int) :
    ∀ t b, longestAux l t b = max b (listMax (bump t (chunkLens l))) := by
  induction l with
  | nil => intro t b; simp [longestAux, chunkLens, bump, listMax]
  | cons d rest ih =>
    intro t b
    cases rest with
    | nil => simp [longestAux, chunkLens, bump, listMax]
    | cons d₂ rest₂ =>
      rcases chunkLens_cons_shape d₂ rest₂ with ⟨c, cs, hc⟩
      by_cases hg : d₂ - d > 1
      · rw [show longestAux (d :: d₂ :: rest₂) t b =
            longestAux (d₂ :: rest₂) 0 (max b (t + 1)) by simp [longestAux, hg]]
        rw [ih 0 (max b (t + 1))]
        simp only [chunkLens, hc, if_pos hg, bump, listMax, List.foldr]
        omega
      · rw [show longestAux (d :: d₂ :: rest₂) t b =
            longestAux (d₂ :: rest₂) (t + 1) b by simp [longestAux, hg]]
        rw [ih (t + 1) b]
        simp only [chunkLens, hc, if_neg hg, bump, listMax, List.foldr]
        omega

lemma longestAux_zero_eq (l : List Int) : longestAux l 0 0 = listMax (chunkLens l) := by
  rw [longestAux_eq_chunks l 0 0]
  rcases l with _ | ⟨d, rest⟩
  · simp [chunkLens, bump, listMax]
  · rcases chunkLens_cons_shape d rest with ⟨c, cs, hc⟩
    simp [hc, bump, listMax]

lemma getStats_longestStreak (entries : List BrushingEntry) (now : ℚ) :
    (getStats entries now).longestStreak =
      longestAux (sortDates (confirmedDates entries)) 0 0 := by
  by_cases h : (entries.filter (fun e => e.confirmed)).length = 0
  · have hnil : entries.filter (fun e => e.confirmed) = [] := List.length_eq_zero.mp h
    simp [getStats, h, confirmedDates, hnil, sortDates, longestAux]
  · simp [getStats, h, confirmedDates]

/-- Claim C3: the computed longestStreak is the maximum run length over the
ascending confirmed dates, where a run ends exactly when the gap to the next
confirmed date exceeds one day. -/
theorem longestStreak_is_max_run (entries : List BrushingEntry) (now : ℚ) :
    (getStats entries now).longestStreak =
      listMax (chunkLens (sortDates (confirmedDates entries))) := by
  rw [getStats_longestStreak, longestAux_zero_eq]

lemma listMax_cons (a : Nat) (l : List Nat) : listMax (a :: l) = max a (listMax l) := rfl

/-- Inserting a date at or after the head of a list can only lengthen the run
containing the insertion point (possibly merging two runs); the first run does
not shrink and no run maximum decreases. -/
lemma chunkLens_orderedInsert_ge :
    ∀ (t : List Int) (h x : Int), h ≤ x →
      (chunkLens (h :: t)).headD 0 ≤
          (chunkLens (List.orderedInsert (· ≤ ·) x (h :: t))).headD 0 ∧
        listMax (chunkLens (h :: t)) ≤
          listMax (chunkLens (List.orderedInsert (· ≤ ·) x (h :: t))) := by
  intro t
  induction t with
  | nil =>
    intro h x hhx
    by_cases hxh : x ≤ h
    · rw [List.orderedInsert_of_le _ _ hxh]
      have hg : ¬ (h - x > 1) := by omega
      simp [chunkLens, hg, listMax]
    · have heq : List.orderedInsert (· ≤ ·) x [h] = [h, x] := by
        simp [List.orderedInsert, hxh]
      rw [heq]
      by_cases hg : x - h > 1
      · simp [chunkLens, hg, listMax]
      · simp [chunkLens, hg, listMax]
  | cons d₂ t₂ ih =>
    intro h x hhx
    rcases chunkLens_cons_shape d₂ t₂ with ⟨c, cs, hc⟩
    by_cases hxh : x ≤ h
    · rw [List.orderedInsert_of_le _ _ hxh]
      have hg : ¬ (h - x > 1) := by omega
      by_cases hg₂ : d₂ - h > 1
      · have h₁ : chunkLens (h :: d₂ :: t₂) = 1 :: c :: cs := by
          simp [chunkLens, hc, hg₂]
        have h₂ : chunkLens (x :: h :: d₂ :: t₂) = 2 :: c :: cs := by
          simp [chunkLens, hc, h₁, hg, hg₂]
        rw [h₁, h₂]
        simp [listMax_cons]
        omega
      · have h₁ : chunkLens (h :: d₂ :: t₂) = (c + 1) :: cs := by
          simp [chunkLens, hc, hg₂]
        have h₂ : chunkLens (x :: h :: d₂ :: t₂) = (c + 1 + 1) :: cs := by
          simp [chunkLens, hc, h₁, hg, hg₂]
        rw [h₁, h₂]
        simp [listMax_cons]
        omega
    · push_neg at hxh
      have heq : List.orderedInsert (· ≤ ·) x (h :: d₂ :: t₂) =
          h :: List.orderedInsert (· ≤ ·) x (d₂ :: t₂) := by
        rw [List.orderedInsert, if_neg (not_le.mpr hxh)]
      rw [heq]
      by_cases hxd : x ≤ d₂
      · rw [List.orderedInsert_of_le _ _ hxd]
        have h₁ : chunkLens (x :: d₂ :: t₂) =
            if d₂ - x > 1 then 1 :: c :: cs else (c + 1) :: cs := by
          simp [chunkLens, hc]
        by_cases hg1 : d₂ - h > 1
        · by_cases hg2 : x - h > 1 <;> by_cases hg3 : d₂ - x > 1 <;>
            simp [chunkLens, hc, h₁, hg1, hg2, hg3, listMax_cons] <;> omega
        · have hg2 : ¬ (x - h > 1) := by omega
          have hg3 : ¬ (d₂ - x > 1) := by omega
          simp [chunkLens, hc, h₁, hg1, hg2, hg3, listMax_cons]
          omega
      · push_neg at hxd
        have heq₂ : List.orderedInsert (· ≤ ·) x (d₂ :: t₂) =
            d₂ :: List.orderedInsert (· ≤ ·) x t₂ := by
          rw [List.orderedInsert, if_neg (not_le.mpr hxd)]
        have IH := ih d₂ x (le_of_lt hxd)
        rw [heq₂] at IH ⊢
        rcases chunkLens_cons_shape d₂ (List.orderedInsert (· ≤ ·) x t₂) with ⟨c', cs', hc'⟩
        rw [hc, hc'] at IH
        simp only [List.headD, listMax_cons] at IH
        by_cases hg : d₂ - h > 1 <;>
          simp [chunkLens, hc, hc', hg, listMax_cons] <;> omega

/-- Inserting one more date never lowers the maximum run length. -/
lemma listMax_chunkLens_orderedInsert (l : List Int) (x : Int) :
    listMax (chunkLens l) ≤ listMax (chunkLens (List.orderedInsert (· ≤ ·) x l)) := by
  cases l with
  | nil => simp [chunkLens, listMax]
  | cons h t =>
    by_cases hxh : x ≤ h
    · rw [List.orderedInsert_of_le _ _ hxh]
      rcases chunkLens_cons_shape h t with ⟨c, cs, hc⟩
      by_cases hg : h - x > 1
      · have h₂ : chunkLens (x :: h :: t) = 1 :: c :: cs := by simp [chunkLens, hc, hg]
        rw [hc, h₂]
        simp [listMax_cons]
      · have h₂ : chunkLens (x :: h :: t) = (c + 1) :: cs := by simp [chunkLens, hc, hg]
        rw [hc, h₂]
        simp [listMax_cons]
        omega
    · exact (chunkLens_orderedInsert_ge t h x (le_of_not_le hxh)).2

/-- Sorting a list that is (a permutation of) `x :: l` is the same as sorting
`l` and then inserting `x` in order. -/
lemma sortDates_perm_cons (l l' : List Int) (x : Int) (hp : l'.Perm (x :: l)) :
    sortDates l' = List.orderedInsert (· ≤ ·) x (sortDates l) := by
  have hperm : (sortDates l').Perm (List.orderedInsert (· ≤ ·) x (sortDates l)) :=
    ((List.perm_insertionSort _ l').trans hp).trans
      (((List.perm_insertionSort _ l).symm.cons x).trans
        (List.perm_orderedInsert _ x (sortDates l)).symm)
  exact List.eq_of_perm_of_sorted hperm (List.sorted_insertionSort _ l')
    ((List.sorted_insertionSort _ l).orderedInsert x _)

/-- Longest streak over unsorted date lists: adding one date never lowers it. -/
lemma longestAux_sort_mono (l l' : List Int) (x : Int) (hp : l'.Perm (x :: l)) :
    longestAux (sortDates l) 0 0 ≤ longestAux (sortDates l') 0 0 := by
  rw [longestAux_zero_eq, longestAux_zero_eq, sortDates_perm_cons l l' x hp]
  exact listMax_chunkLens_orderedInsert (sortDates l) x

lemma confirmedDates_append (l₁ l₂ : List BrushingEntry) :
    confirmedDates (l₁ ++ l₂) = confirmedDates l₁ ++ confirmedDates l₂ := by
  simp [confirmedDates, List.filter_append]

/-- The confirm-flavoured updateEntry never unconfirms and never changes a
date: the confirmed-date list either stays the same or gains exactly the
updated entry's date. -/
lemma confirmedDates_updateEntry_confirm (l : List BrushingEntry) (id : Nat) (ts : Int) :
    confirmedDates (updateEntry l id (confirmUpdates ts)).1 = confirmedDates l ∨
      ∃ x, (confirmedDates (updateEntry l id (confirmUpdates ts)).1).Perm
        (x :: confirmedDates l) := by
  induction l with
  | nil => exact Or.inl rfl
  | cons e rest ih =>
    by_cases h : e.id = id
    · simp only [updateEntry, if_pos h]
      by_cases hc : e.confirmed
      · left
        simp [confirmedDates, applyUpdates, confirmUpdates, hc]
      · right
        refine ⟨e.date, ?_⟩
        have : (e.confirmed = true) = False := by simp [hc]
        simp [confirmedDates, applyUpdates, confirmUpdates, hc]
    · simp only [updateEntry, if_neg h]
      rcases ih with heq | ⟨x, hperm⟩
      · left
        by_cases hc : e.confirmed <;> simp [confirmedDates, hc] at heq ⊢ <;> exact heq
      · right
        refine ⟨x, ?_⟩
        by_cases hc : e.confirmed
        · have h₁ : confirmedDates (e :: (updateEntry rest id (confirmUpdates ts)).1) =
              e.date :: confirmedDates (updateEntry rest id (confirmUpdates ts)).1 := by
            simp [confirmedDates, hc]
          have h₂ : confirmedDates (e :: rest) = e.date :: confirmedDates rest := by
            simp [confirmedDates, hc]
          rw [h₁, h₂]
          exact (hperm.cons e.date).trans (List.Perm.swap x e.date _)
        · have h₁ : confirmedDates (e :: (updateEntry rest id (confirmUpdates ts)).1) =
              confirmedDates (updateEntry rest id (confirmUpdates ts)).1 := by
            simp [confirmedDates, hc]
          have h₂ : confirmedDates (e :: rest) = confirmedDates rest := by
            simp [confirmedDates, hc]
          rw [h₁, h₂]
          exact hperm

/-- Claim C5: adding a confirmed entry — whether appended by insertEntry or
created/updated by confirmBrushingToday — never lowers longestStreak. -/
theorem longestStreak_monotone (entries : List BrushingEntry) (e : BrushingEntry)
    (today ts : Int) (newId : Nat) (now : ℚ) :
    (e.confirmed = true →
        (getStats entries now).longestStreak ≤
          (getStats (insertEntry entries e) now).longestStreak) ∧
      (getStats entries now).longestStreak ≤
        (getStats (confirmBrushingToday entries today ts newId) now).longestStreak := by
  have key : ∀ e₂ : BrushingEntry, e₂.confirmed = true →
      longestAux (sortDates (confirmedDates entries)) 0 0 ≤
        longestAux (sortDates (confirmedDates (insertEntry entries e₂))) 0 0 := by
    intro e₂ hconf
    apply longestAux_sort_mono (confirmedDates entries) _ e₂.date
    have h₁ : confirmedDates (insertEntry entries e₂) =
        confirmedDates entries ++ [e₂.date] := by
      rw [insertEntry, confirmedDates_append]
      simp [confirmedDates, hconf]
    rw [h₁]
    exact List.perm_append_singleton e₂.date (confirmedDates entries)
  constructor
  · intro hconf
    rw [getStats_longestStreak, getStats_longestStreak]
    exact key e hconf
  · rw [getStats_longestStreak, getStats_longestStreak]
    rcases ho : getEntryByDate entries today with _ | ex
    · simp only [confirmBrushingToday, ho]
      exact key _ rfl
    · simp only [confirmBrushingToday, ho]
      rcases confirmedDates_updateEntry_confirm entries ex.id ts with heq | ⟨x, hperm⟩
      · rw [heq]
      · exact longestAux_sort_mono (confirmedDates entries) _ x hperm

/-- Witness for C5: the empty store, a confirmed entry appended, and a fresh
confirmation. -/
theorem longestStreak_monotone_witness :
    (getStats [] 0).longestStreak ≤
        (getStats (insertEntry [] ⟨5, 0, 0, true, none⟩) 0).longestStreak ∧
      (getStats [] 0).longestStreak ≤
        (getStats (confirmBrushingToday [] 0 0 6) 0).longestStreak :=
  ⟨(longestStreak_monotone [] ⟨5, 0, 0, true, none⟩ 0 0 6 0).1 rfl,
    (longestStreak_monotone [] ⟨5, 0, 0, true, none⟩ 0 0 6 0).2⟩

/-- Confirmed entries dated within the last 30 days of `now`
(`new Date(entry.date) >= thirtyDaysAgo`). -/
def countRecentConfirmed (entries : List BrushingEntry) (now : ℚ) : Nat :=
  ((entries.filter (fun e => e.confirmed)).filter
    (fun e => now - 30 ≤ (e.date : ℚ))).length

lemma round10_zero : round10 0 = 0 := by
  norm_num [round10]

lemma getStats_averagePerWeek (entries : List BrushingEntry) (now : ℚ) :
    (getStats entries now).averagePerWeek =
      round10 (((countRecentConfirmed entries now : ℚ) / 30) * 7) := by
  by_cases h : (entries.filter (fun e => e.confirmed)).length = 0
  · have hnil : entries.filter (fun e => e.confirmed) = [] := List.length_eq_zero.mp h
    have hcnt : countRecentConfirmed entries now = 0 := by
      simp [countRecentConfirmed, hnil]
    simp [getStats, h, hcnt, round10_zero]
  · simp [getStats, h, countRecentConfirmed]

/-- Counterexample to claim C6 as stated: with a single confirmed entry in the
window, the stored averagePerWeek is the rounded 0.2, not (1/30)*7 = 7/30. -/
theorem averagePerWeek_formula_counterexample :
    countRecentConfirmed [⟨0, 0, 0, true, none⟩] 0 = 1 ∧
      (getStats [⟨0, 0, 0, true, none⟩] 0).averagePerWeek ≠
        ((countRecentConfirmed [⟨0, 0, 0, true, none⟩] 0 : ℚ) / 30) * 7 := by
  have hcnt : countRecentConfirmed [⟨0, 0, 0, true, none⟩] 0 = 1 := by
    norm_num [countRecentConfirmed, List.filter]
  refine ⟨hcnt, ?_⟩
  rw [getStats_averagePerWeek, hcnt]
  have hfl : ⌊((1 : Nat) : ℚ) / 30 * 7 * 10 + 1 / 2⌋ = 2 := by norm_num
  rw [round10, hfl]
  norm_num

/-- Claim C6 (amended): averagePerWeek is (confirmed-days-in-last-30-days / 30)
× 7 rounded to one decimal place (Math.round(x*10)/10); in particular, with 30
confirmed entries inside the window it is exactly 7. -/
theorem averagePerWeek_rounded_formula (entries : List BrushingEntry) (now : ℚ) :
    (getStats entries now).averagePerWeek =
        round10 (((countRecentConfirmed entries now : ℚ) / 30) * 7) ∧
      (countRecentConfirmed entries now = 30 →
        (getStats entries now).averagePerWeek = 7) := by
  refine ⟨getStats_averagePerWeek entries now, fun h30 => ?_⟩
  rw [getStats_averagePerWeek entries now, h30]
  have hv : (((30 : Nat) : ℚ) / 30) * 7 = 7 := by norm_num
  rw [hv]
  have hfl : ⌊(7 : ℚ) * 10 + 1 / 2⌋ = 70 := by norm_num
  rw [round10, hfl]
  norm_num

/-- A store holding 30 confirmed entries on the 30 consecutive days ending at
day 0. -/
def windowEntries : List BrushingEntry :=
  (List.range 30).map (fun i => ⟨i, -(i : Int), 0, true, none⟩)

lemma windowEntries_count : countRecentConfirmed windowEntries 0 = 30 := by
  have h1 : List.filter (fun e => e.confirmed) windowEntries = windowEntries := by
    rw [List.filter_eq_self]
    intro e he
    simp only [windowEntries, List.mem_map, List.mem_range] at he
    obtain ⟨i, hi, rfl⟩ := he
    rfl
  have h2 : List.filter (fun e => decide ((0 : ℚ) - 30 ≤ (e.date : ℚ))) windowEntries
      = windowEntries := by
    rw [List.filter_eq_self]
    intro e he
    simp only [windowEntries, List.mem_map, List.mem_range] at he
    obtain ⟨i, hi, rfl⟩ := he
    simp only [decide_eq_true_eq]
    push_cast
    have : (i : ℚ) ≤ 30 := by exact_mod_cast le_of_lt hi
    linarith
  unfold countRecentConfirmed
  rw [h1, h2]
  simp [windowEntries]

/-- Witness for the amended C6: 30 confirmed days inside the window give
exactly 7 per week. -/
theorem averagePerWeek_rounded_formula_witness :
    countRecentConfirmed windowEntries 0 = 30 ∧
      (getStats windowEntries 0).averagePerWeek = 7 :=
  ⟨windowEntries_count, (averagePerWeek_rounded_formula windowEntries 0).2 windowEntries_count⟩

/-
Reminders (useReminders.ts, calculateNextReminder lines 82-110).

A configured time "HH:MM" is modelled as minutes after today's midnight
(0 ≤ t < 1440 for well-formed times); lexicographic sort of zero-padded
"HH:MM" strings is numeric order of these minute values.  The current
instant `now` is also measured in minutes after today's midnight; the
strict Date comparison `reminderTime > now` is `now < t` (a reminder this
very minute, seconds included, does not count as still ahead).  The result
encodes a reminder today at minute t as `some t` and the first reminder
tomorrow as `some (1440 + t)`; `none` is the null returned for an empty
reminder list.
-/

/-- calculateNextReminder: scan the sorted times for the first one still ahead
of `now` today; otherwise take the earliest time tomorrow. -/
def calculateNextReminder (times : List Nat) (now : Nat) : Option Nat :=
  match List.insertionSort (· ≤ ·) times with
  | [] => none
  | t₀ :: rest =>
    match (t₀ :: rest).find? (fun t => now < t) with
    | some t => some t
    | none => some (1440 + t₀)

/-- The next reminder as the spec words it: the earliest configured time
strictly later than the current time, or the earliest configured time
tomorrow when every configured time has passed; null for no times. -/
def nextReminderSpec (times : List Nat) (now : Nat) : Option Nat :=
  match times with
  | [] => none
  | t :: ts =>
    match (t :: ts).filter (fun x => now < x) with
    | [] => some (1440 + ts.foldl min t)
    | l₀ :: ls => some (ls.foldl min l₀)

lemma foldl_min_le_init (ts : List Nat) (t : Nat) : ts.foldl min t ≤ t := by
  induction ts generalizing t with
  | nil => simp
  | cons a rest ih => exact le_trans (ih (min t a)) (min_le_left t a)

lemma foldl_min_le_mem (ts : List Nat) (t x : Nat) (hx : x ∈ ts) : ts.foldl min t ≤ x := by
  induction ts generalizing t with
  | nil => simp at hx
  | cons a rest ih =>
    rcases List.mem_cons.mp hx with rfl | hx₂
    · exact le_trans (foldl_min_le_init rest (min t x)) (min_le_right t x)
    · exact ih (min t a) hx₂
lemma foldl_min_mem (ts : List Nat) (t : Nat) : ts.foldl min t = t ∨ ts.foldl min t ∈ ts := by
  induction ts generalizing t with
  | nil => exact Or.inl rfl
  | cons a rest ih =>
    rcases ih (min t a) with h | h
    · rcases Nat.le_total t a with hta | hat
      · left
        rw [List.foldl, h, min_eq_left hta]
      · right
        rw [List.foldl, h, min_eq_right hat]
        exact List.mem_cons_self a rest
    · exact Or.inr (List.mem_cons_of_mem a h)

/-- In a sorted list, the first element satisfying the upward-closed predicate
`now < ·` is below every satisfying element. -/
lemma sorted_find?_least (s : List Nat) (hs : s.Sorted (· ≤ ·)) (now y : Nat)
    (hf : s.find? (fun t => now < t) = some y) :
    y ∈ s ∧ now < y ∧ ∀ x ∈ s, now < x → y ≤ x := by
  induction s with
  | nil => simp at hf
  | cons a rest ih =>
    rcases List.sorted_cons.mp hs with ⟨ha, hrest⟩
    by_cases hp : now < a
    · have : y = a := by
        have := hf
        rw [List.find?_cons_of_pos _ (by simpa using hp)] at this
        simpa using this.symm
      subst this
      exact ⟨List.mem_cons_self _ _, hp, fun x hx _ => by
        rcases List.mem_cons.mp hx with rfl | hx₂
        · exact le_refl x
        · exact ha x hx₂⟩
    · have hf₂ : rest.find? (fun t => now < t) = some y := by
        have := hf
        rwa [List.find?_cons_of_neg _ (by simpa using hp)] at this
      rcases ih hrest hf₂ with ⟨hmem, hlt, hleast⟩
      refine ⟨List.mem_cons_of_mem a hmem, hlt, fun x hx hxlt => ?_⟩
      rcases List.mem_cons.mp hx with rfl | hx₂
      · omega
      · exact hleast x hx₂ hxlt

/-- Claim C8: for a non-empty reminder list the derived next reminder is the
earliest configured time strictly later than now, or the earliest configured
time on the following day when all of today's times have passed; for an empty
list it is null. -/
theorem calculateNextReminder_correct (times : List Nat) (now : Nat) :
    calculateNextReminder times now = nextReminderSpec times now := by
  rcases hs : List.insertionSort (· ≤ ·) times with _ | ⟨t₀, rest⟩
  · have hnil : times = [] := by
      have hperm := List.perm_insertionSort (· ≤ ·) times
      rw [hs] at hperm
      exact hperm.symm.eq_nil
    rw [hnil]
    rfl
  · have hperm := List.perm_insertionSort (· ≤ ·) times
    rw [hs] at hperm
    have hsort : (t₀ :: rest).Sorted (· ≤ ·) := by
      have := List.sorted_insertionSort (· ≤ ·) times
      rwa [hs] at this
    have hhead : ∀ x ∈ t₀ :: rest, t₀ ≤ x := by
      intro x hx
      rcases List.mem_cons.mp hx with rfl | hx₂
      · exact le_refl x
      · exact (List.sorted_cons.mp hsort).1 x hx₂
    rcases htimes : times with _ | ⟨t, ts⟩
    · subst htimes
      simp at hperm
    · subst htimes
      unfold calculateNextReminder nextReminderSpec
      rw [hs]
      rcases hf : (t₀ :: rest).find? (fun x => now < x) with _ | y
      · have hnone : ∀ x ∈ t :: ts, ¬ (now < x) := by
          intro x hx
          have hx₂ : x ∈ t₀ :: rest := hperm.mem_iff.mpr hx
          have := List.find?_eq_none.mp hf x hx₂
          simpa using this
        have hfil : (t :: ts).filter (fun x => now < x) = [] := by
          rw [List.filter_eq_nil_iff]
          intro x hx
          simpa using hnone x hx
        have hm : ts.foldl min t = t₀ := by
          have hmem₀ : t₀ ∈ t :: ts := hperm.mem_iff.mp (List.mem_cons_self t₀ rest)
          have hmle : ts.foldl min t ≤ t₀ := by
            rcases List.mem_cons.mp hmem₀ with h | h
            · rw [h]
              exact foldl_min_le_init ts t
            · exact foldl_min_le_mem ts t t₀ h
          have hlem : t₀ ≤ ts.foldl min t := by
            rcases foldl_min_mem ts t with h | h
            · rw [h]
              exact hhead t (hperm.mem_iff.mpr (List.mem_cons_self t ts))
            · exact hhead _ (hperm.mem_iff.mpr (List.mem_cons_of_mem t h))
          omega
        dsimp only
        rw [hf, hfil]
        dsimp only
        rw [hm]
      · rcases sorted_find?_least _ hsort now y hf with ⟨hmem, hlt, hleast⟩
        have hytimes : y ∈ t :: ts := hperm.mem_iff.mp hmem
        have hyf : y ∈ (t :: ts).filter (fun x => now < x) :=
          List.mem_filter.mpr ⟨hytimes, by simpa using hlt⟩
        rcases hfil : (t :: ts).filter (fun x => now < x) with _ | ⟨l₀, ls⟩
        · rw [hfil] at hyf
          simp at hyf
        · rw [hfil] at hyf
          have hsubmem : ∀ z ∈ l₀ :: ls, z ∈ t :: ts ∧ now < z := by
            intro z hz
            have : z ∈ (t :: ts).filter (fun x => now < x) := hfil ▸ hz
            rcases List.mem_filter.mp this with ⟨hz₁, hz₂⟩
            exact ⟨hz₁, by simpa using hz₂⟩
          have hm : ls.foldl min l₀ = y := by
            have hmle : ls.foldl min l₀ ≤ y := by
              rcases List.mem_cons.mp hyf with rfl | h
              · exact foldl_min_le_init ls y
              · exact foldl_min_le_mem ls l₀ y h
            have hlem : y ≤ ls.foldl min l₀ := by
              rcases foldl_min_mem ls l₀ with h | h
              · rw [h]
                rcases hsubmem l₀ (List.mem_cons_self l₀ ls) with ⟨hz₁, hz₂⟩
                exact hleast l₀ (hperm.mem_iff.mpr hz₁) hz₂
              · rcases hsubmem _ (List.mem_cons_of_mem l₀ h) with ⟨hz₁, hz₂⟩
                exact hleast _ (hperm.mem_iff.mpr hz₁) hz₂
            omega
          dsimp only
          rw [hf, hfil]
          dsimp only
          rw [hm]

/-
Error handling (storage.ts).  The underlying localStorage + JSON layer is
modelled as a backend whose reads either yield the parsed value (`some`),
yield nothing (`none`, key absent), or throw (`Except.error`), and whose
writes either succeed or throw — localStorage.setItem can throw (e.g.
QuotaExceededError).  Times "HH:MM" are minutes after midnight, the volume a
rational, the sound and time-format strings.  An operation modelled with
result type `Except` propagates a backend exception to its caller exactly
when the source has no try/catch around the throwing call.
-/

/-- AppSettings (storage.ts lines 9-16). -/
structure AppSettings where
  reminderTimes : List Nat
  soundEnabled : Bool
  volume : ℚ
  selectedSound : String
  alarmDelay : Nat
  timeFormat : String
deriving DecidableEq, Repr

/-- Partial<AppSettings>, as parsed from the settings key. -/
structure PartialAppSettings where
  reminderTimes : Option (List Nat) := none
  soundEnabled : Option Bool := none
  volume : Option ℚ := none
  selectedSound : Option String := none
  alarmDelay : Option Nat := none
  timeFormat : Option String := none
deriving DecidableEq, Repr

/-- DEFAULT_SETTINGS (storage.ts lines 32-39): reminders at 08:00 and 20:00,
sound on, volume 0.7, chime, 30 minute alarm delay, 24h format. -/
def DEFAULT_SETTINGS : AppSettings :=
  { reminderTimes := [480, 1200], soundEnabled := true, volume := 7 / 10,
    selectedSound := "chime", alarmDelay := 30, timeFormat := "24h" }

/-- The spread `{ ...DEFAULT_SETTINGS, ...JSON.parse(data) }`. -/
def mergeSettings (base : AppSettings) (p : PartialAppSettings) : AppSettings :=
  { reminderTimes := p.reminderTimes.getD base.reminderTimes
    soundEnabled := p.soundEnabled.getD base.soundEnabled
    volume := p.volume.getD base.volume
    selectedSound := p.selectedSound.getD base.selectedSound
    alarmDelay := p.alarmDelay.getD base.alarmDelay
    timeFormat := p.timeFormat.getD base.timeFormat }

/-- One interaction with the local store: the outcome of reading and parsing
each key, and the outcome of a setItem on each key. -/
structure StorageBackend where
  entriesItem : Except String (Option (List BrushingEntry))
  settingsItem : Except String (Option PartialAppSettings)
  setItemEntries : Except String Unit
  setItemSettings : Except String Unit

/-- BrushingStorage.getAllEntries (lines 44-52): the read and parse are inside
try/catch; a throw is logged and the empty list returned, so the result type
carries no exception. -/
def getAllEntriesSt (s : StorageBackend) : List BrushingEntry :=
  match s.entriesItem with
  | Except.ok (some l) => l
  | Except.ok none => []
  | Except.error _ => []

/-- SettingsStorage.getSettings (lines 164-174): same try/catch shape, merging
parsed settings over the defaults; a throw yields DEFAULT_SETTINGS. -/
def getSettingsSt (s : StorageBackend) : AppSettings :=
  match s.settingsItem with
  | Except.ok (some p) => mergeSettings DEFAULT_SETTINGS p
  | Except.ok none => DEFAULT_SETTINGS
  | Except.error _ => DEFAULT_SETTINGS

/-- BrushingStorage.insertEntry (lines 55-68): the read is the caught
getAllEntries, but the subsequent localStorage.setItem has no try/catch, so a
write failure escapes to the caller. -/
def insertEntrySt (s : StorageBackend) (e : BrushingEntry) :
    Except String (List BrushingEntry × BrushingEntry) :=
  let newList := insertEntry (getAllEntriesSt s) e
  match s.setItemEntries with
  | Except.ok _ => Except.ok (newList, e)
  | Except.error err => Except.error err

/-- BrushingStorage.updateEntry (lines 71-83): no setItem is attempted when the
id is absent; otherwise the uncaught setItem outcome decides. -/
def updateEntrySt (s : StorageBackend) (id : Nat) (u : EntryUpdates) :
    Except String (List BrushingEntry × Bool) :=
  match updateEntry (getAllEntriesSt s) id u with
  | (l, false) => Except.ok (l, false)
  | (l, true) =>
    match s.setItemEntries with
    | Except.ok _ => Except.ok (l, true)
    | Except.error err => Except.error err

/-- BrushingStorage.deleteEntry (lines 143-154): filter, and only write (an
uncaught setItem) when something was removed. -/
def deleteEntrySt (s : StorageBackend) (id : Nat) :
    Except String (List BrushingEntry × Bool) :=
  match deleteEntry (getAllEntriesSt s) id with
  | (l, false) => Except.ok (l, false)
  | (l, true) =>
    match s.setItemEntries with
    | Except.ok _ => Except.ok (l, true)
    | Except.error err => Except.error err

/-- SettingsStorage.updateSettings (lines 177-181): caught read, merge, then
an uncaught setItem. -/
def updateSettingsSt (s : StorageBackend) (p : PartialAppSettings) :
    Except String AppSettings :=
  let updated := mergeSettings (getSettingsSt s) p
  match s.setItemSettings with
  | Except.ok _ => Except.ok updated
  | Except.error err => Except.error err

/-- Counterexample to claim C7 as stated: against a backend whose setItem
throws (a quota error), insertEntry propagates the exception to its caller
instead of catching it — only the reads are wrapped in try/catch. -/
theorem storage_error_counterexample :
    insertEntrySt
        { entriesItem := Except.ok none, settingsItem := Except.ok none,
          setItemEntries := Except.error "QuotaExceededError",
          setItemSettings := Except.error "QuotaExceededError" }
        ⟨0, 0, 0, true, none⟩ =
      Except.error "QuotaExceededError" := rfl

/-- Claim C7 (amended): the read operations getAllEntries and getSettings
catch backend failures and return the safe defaults (empty list,
DEFAULT_SETTINGS); the write operations (insertEntry, updateEntry,
deleteEntry, updateSettings) do not wrap setItem and propagate its failure to
the caller. -/
theorem storage_error_handling (s : StorageBackend) (err : String) (e : BrushingEntry)
    (id : Nat) (u : EntryUpdates) (p : PartialAppSettings) :
    (s.entriesItem = Except.error err → getAllEntriesSt s = []) ∧
      (s.settingsItem = Except.error err → getSettingsSt s = DEFAULT_SETTINGS) ∧
      (s.setItemEntries = Except.error err → insertEntrySt s e = Except.error err) ∧
      (s.setItemEntries = Except.error err →
        (updateEntry (getAllEntriesSt s) id u).2 = true →
        updateEntrySt s id u = Except.error err) ∧
      (s.setItemEntries = Except.error err →
        (deleteEntry (getAllEntriesSt s) id).2 = true →
        deleteEntrySt s id = Except.error err) ∧
      (s.setItemSettings = Except.error err → updateSettingsSt s p = Except.error err) := by
  refine ⟨fun h => by simp [getAllEntriesSt, h],
    fun h => by simp [getSettingsSt, h],
    fun h => by simp [insertEntrySt, h],
    fun h hu => ?_, fun h hd => ?_,
    fun h => by simp [updateSettingsSt, h]⟩
  · rcases hres : updateEntry (getAllEntriesSt s) id u with ⟨l, b⟩
    rw [hres] at hu
    simp only at hu
    subst hu
    simp [updateEntrySt, hres, h]
  · rcases hres : deleteEntry (getAllEntriesSt s) id with ⟨l, b⟩
    rw [hres] at hd
    simp only at hd
    subst hd
    simp [deleteEntrySt, hres, h]

/-- Witness for the amended C7 on the all-throwing backend. -/
theorem storage_error_handling_witness :
    getAllEntriesSt
        { entriesItem := Except.error "SecurityError", settingsItem := Except.error "SecurityError",
          setItemEntries := Except.error "QuotaExceededError",
          setItemSettings := Except.error "QuotaExceededError" } = [] ∧
      getSettingsSt
        { entriesItem := Except.error "SecurityError", settingsItem := Except.error "SecurityError",
          setItemEntries := Except.error "QuotaExceededError",
          setItemSettings := Except.error "QuotaExceededError" } = DEFAULT_SETTINGS ∧
      insertEntrySt
        { entriesItem := Except.error "SecurityError", settingsItem := Except.error "SecurityError",
          setItemEntries := Except.error "QuotaExceededError",
          setItemSettings := Except.error "QuotaExceededError" } ⟨0, 0, 0, true, none⟩ =
        Except.error "QuotaExceededError" := by
  have h := storage_error_handling
    { entriesItem := Except.error "SecurityError", settingsItem := Except.error "SecurityError",
      setItemEntries := Except.error "QuotaExceededError",
      setItemSettings := Except.error "QuotaExceededError" }
    "SecurityError" ⟨0, 0, 0, true, none⟩ 0 {} {}
  have h₂ := storage_error_handling
    { entriesItem := Except.error "SecurityError", settingsItem := Except.error "SecurityError",
      setItemEntries := Except.error "QuotaExceededError",
      setItemSettings := Except.error "QuotaExceededError" }
    "QuotaExceededError" ⟨0, 0, 0, true, none⟩ 0 {} {}
  exact ⟨h.1 rfl, h.2.1 rfl, h₂.2.2.1 rfl⟩

/-
Time format conversion (timeFormat.ts lines 4-26), modelled at string level.
Characters and strings are the real ones; only two JavaScript built-ins are
modelled by restricted counterparts, faithful on the inputs these functions
receive: Number() on the all-digit "HH"/"MM" fragments (jsNumber, with none
for NaN — NaN arithmetic on malformed input is not modelled), and
String.prototype.padStart(2, "0") on values below 100 (pad2).  The regex
^(\d{1,2}):(\d{2})\s*(AM|PM)$/i of convertTo24Hour is rendered as a direct
parser: take one or two digits (taking two digits then requiring ':' is
equivalent to the greedy-with-backtracking regex, since after one digit a
second digit excludes ':'), then ':', exactly two digits, any whitespace,
and a case-insensitive AM/PM ending the string.
-/

def digitVal (c : Char) : Nat := c.toNat - 48

/-- String(n).padStart(2, "0") for n < 100. -/
def pad2 (n : Nat) : String := if n < 10 then "0" ++ toString n else toString n

/-- split(":") at character level. -/
def splitOnColon (cs : List Char) : List (List Char) :=
  match cs with
  | [] => [[]]
  | c :: rest =>
    if c = ':' then [] :: splitOnColon rest
    else
      match splitOnColon rest with
      | [] => [[c]]
      | p :: ps => (c :: p) :: ps

/-- Number() on an all-digit fragment; `none` is NaN. -/
def jsNumber (cs : List Char) : Option Nat :=
  if cs ≠ [] ∧ cs.all (fun c => c.isDigit) then
    some (cs.foldl (fun a c => a * 10 + digitVal c) 0)
  else none

/-- convertTo12Hour (timeFormat.ts lines 4-9): split on ':', map Number, build
"h:MM AM/PM" with an unpadded 12-hour hour and zero-padded minutes. -/
def convertTo12Hour (time24 : String) : String :=
  let parts := splitOnColon time24.toList
  let hours := (jsNumber (parts.headD [])).getD 0
  let minutes := (jsNumber ((parts.drop 1).headD [])).getD 0
  let period := if hours ≥ 12 then "PM" else "AM"
  let hours12 := if hours = 0 then 12 else if hours > 12 then hours - 12 else hours
  toString hours12 ++ ":" ++ pad2 minutes ++ " " ++ period

/-- The \s*(AM|PM)$ tail of the regex, case-insensitive; the result is whether
the period is PM. -/
def parseTail (cs : List Char) : Option Bool :=
  match cs with
  | [] => none
  | c :: rest =>
    if c.isWhitespace then parseTail rest
    else if c = 'A' ∨ c = 'a' then
      match rest with
      | [m] => if m = 'M' ∨ m = 'm' then some false else none
      | _ => none
    else if c = 'P' ∨ c = 'p' then
      match rest with
      | [m] => if m = 'M' ∨ m = 'm' then some true else none
      | _ => none
    else none

/-- The regex match of convertTo24Hour: hour value, captured minute characters
and the period. -/
def parseTime12 (cs : List Char) : Option (Nat × List Char × Bool) :=
  match cs with
  | d₁ :: d₂ :: ':' :: m₁ :: m₂ :: rest =>
    if d₁.isDigit ∧ d₂.isDigit ∧ m₁.isDigit ∧ m₂.isDigit then
      (parseTail rest).map (fun pm => (digitVal d₁ * 10 + digitVal d₂, [m₁, m₂], pm))
    else none
  | d₁ :: ':' :: m₁ :: m₂ :: rest =>
    if d₁.isDigit ∧ m₁.isDigit ∧ m₂.isDigit then
      (parseTail rest).map (fun pm => (digitVal d₁, [m₁, m₂], pm))
    else none
  | _ => none

/-- convertTo24Hour (timeFormat.ts lines 12-26): return the input unchanged
when the regex does not match; otherwise map 12 AM to 0, add 12 to PM hours
other than 12, and emit the zero-padded hour with the captured minutes. -/
def convertTo24Hour (time12 : String) : String :=
  match parseTime12 time12.toList with
  | none => time12
  | some (h, minChars, isPM) =>
    let hours := if isPM = false ∧ h = 12 then 0
      else if isPM = true ∧ h ≠ 12 then h + 12 else h
    pad2 hours ++ ":" ++ String.mk minChars

set_option maxHeartbeats 2000000 in
/-- Claim C10: for every valid 24-hour time (hour 0-23, minute 0-59),
converting the zero-padded HH:MM string to 12-hour format and back yields the
original string. -/
theorem time_format_round_trip : ∀ h : Nat, h < 24 → ∀ m : Nat, m < 60 →
    convertTo24Hour (convertTo12Hour (pad2 h ++ ":" ++ pad2 m)) = pad2 h ++ ":" ++ pad2 m := by
  decide

/-- Witness for C10 at 13:05. -/
theorem time_format_round_trip_witness :
    13 < 24 ∧ 5 < 60 ∧
      convertTo24Hour (convertTo12Hour (pad2 13 ++ ":" ++ pad2 5)) = pad2 13 ++ ":" ++ pad2 5 :=
  ⟨by decide, by decide, time_format_round_trip 13 (by decide) 5 (by decide)⟩
